import Mathlib

/-!
# Version metadata header of the Mystic application

A verification development for `build_mystic/include/mystic_version_defines.hpp`.
The header is a guarded list of object-like `#define` directives.  It is embedded
as the macro table those directives produce, together with the preprocessor's
expansion of object-like macros, so that every statement below is about what a
translation unit sees after including the header.
-/

namespace Mystic

/-! ## Preprocessing tokens and directives -/

/-- Preprocessing tokens occurring in the replacement lists of the header:
a pp-number (kept with its spelling), a string literal (kept as its contents,
the header uses no escape sequence), an identifier, and the `,` punctuator. -/
inductive PPToken where
  | number (spelling : String)
  | stringLit (contents : String)
  | ident (name : String)
  | comma
  deriving DecidableEq, Repr

/-- One `#define NAME replacement-list` directive of an object-like macro. -/
structure Define where
  name : String
  body : List PPToken
  deriving DecidableEq, Repr

/-- Macro name tested and defined by the include guard (header lines 1-2). -/
def guardName : String := "MYSTIC_VERSIONDEFINES_HPP"

/-- The `#define` directives of the header between the guard and `#endif`
(lines 11-35), in source order.  The commented-out line 33
(`//#define MYSTIC_INTERNALNAME_STR "TBD"`) is a comment and defines nothing. -/
def directives : List Define :=
  [ ⟨"MYSTIC_VERSION_MAJOR", [.number "2"]⟩,
    ⟨"MYSTIC_VERSION_MINOR", [.number "7"]⟩,
    ⟨"MYSTIC_VERSION_PATCH", [.number "1"]⟩,
    ⟨"MYSTIC_VERSION", [.stringLit "2.7.1"]⟩,
    ⟨"MYSTIC_RELEASE_VERSION", [.stringLit "2.7.1 11-19-2020"]⟩,
    ⟨"MYSTIC_FILEVERSION",
      [.ident "MYSTIC_VERSION_MAJOR", .comma, .ident "MYSTIC_VERSION_MINOR", .comma,
       .ident "MYSTIC_VERSION_PATCH"]⟩,
    ⟨"MYSTIC_FILEVERSION_STR", [.ident "MYSTIC_VERSION"]⟩,
    ⟨"MYSTIC_PRODUCTVERSION", [.ident "MYSTIC_FILEVERSION"]⟩,
    ⟨"MYSTIC_PRODUCTVERSION_STR", [.ident "MYSTIC_RELEASE_VERSION"]⟩,
    ⟨"MYSTIC_COMPANYNAME_STR", [.stringLit "United States Air Force (USAF)"]⟩,
    ⟨"MYSTIC_LEGALCOPYRIGHT_STR", [.stringLit "Multiple"]⟩,
    ⟨"MYSTIC_LEGALTRADEMARKS1_STR", [.stringLit "All Rights Reserved"]⟩,
    ⟨"MYSTIC_LEGALTRADEMARKS2_STR", [.ident "MYSTIC_LEGALTRADEMARKS1_STR"]⟩,
    ⟨"MYSTIC_COMPANYDOMAIN_STR", [.stringLit "https://airforce.com"]⟩,
    ⟨"MYSTIC_FILEDESCRIPTION_STR",
      [.stringLit "AFSIM's application for the visualization of event_pipe output"]⟩,
    ⟨"MYSTIC_ORIGINALFILENAME_STR", [.stringLit "mystic.exe"]⟩,
    ⟨"MYSTIC_PRODUCTNAME_STR", [.stringLit "AFSIM-Mystic"]⟩ ]

/-- Replacement list of the macro `name` in the table `tbl`, `none` when the
name is not defined. -/
def lookup (tbl : List Define) (name : String) : Option (List PPToken) :=
  (tbl.find? (fun d => d.name == name)).map (fun d => d.body)

/-- Processing the header in a translation unit whose macro table is `env`:
`#ifndef MYSTIC_VERSIONDEFINES_HPP` skips everything up to `#endif` when the
guard is already defined; otherwise the guard (with an empty replacement list)
and then every directive are added, in order. -/
def includeHeader (env : List Define) : List Define :=
  match lookup env guardName with
  | some _ => env
  | none => env ++ (⟨guardName, []⟩ :: directives)

/-- The macro table after including the header from an empty table. -/
def header : List Define := includeHeader []

/-! ## Macro expansion -/

/-- One rescanning pass over a token list.  An identifier naming a macro that
is not being expanded already (`hide`) is replaced by the expansion of its
replacement list, computed by `sub` with the name added to `hide`; every other
token is kept.  All macros of the header are object-like, so a replacement list
is expanded independently of the tokens that follow it. -/
def expandWith (tbl : List Define)
    (sub : List String → List PPToken → Option (List PPToken))
    (hide : List String) : List PPToken → Option (List PPToken)
  | [] => some []
  | .ident n :: rest =>
    if hide.contains n then
      (expandWith tbl sub hide rest).map (fun r => .ident n :: r)
    else
      match lookup tbl n with
      | none => (expandWith tbl sub hide rest).map (fun r => .ident n :: r)
      | some body =>
        match sub (n :: hide) body with
        | none => none
        | some a => (expandWith tbl sub hide rest).map (fun r => a ++ r)
  | t :: rest => (expandWith tbl sub hide rest).map (fun r => t :: r)

/-- Full macro expansion of a token list; `fuel` bounds the nesting depth of
macro replacement, and `none` means the bound was reached. -/
def expand (tbl : List Define) : Nat → List String → List PPToken → Option (List PPToken)
  | 0 => fun _ _ => none
  | fuel + 1 => fun hide toks => expandWith tbl (expand tbl fuel) hide toks

/-- Expansion of a use of the identifier `name` in a translation unit with
macro table `tbl`.  A name being replaced is never replaced again inside its
own expansion, so nesting is never deeper than the number of macros. -/
def expandMacro (tbl : List Define) (name : String) : Option (List PPToken) :=
  expand tbl (tbl.length + 1) [] [.ident name]

/-- Whether the token is a literal or punctuator, that is, not an identifier. -/
def PPToken.isLiteral : PPToken → Bool
  | .ident _ => false
  | _ => true

/-- Identifiers occurring in a replacement list. -/
def identsOf : List PPToken → List String
  | [] => []
  | .ident n :: rest => n :: identsOf rest
  | _ :: rest => identsOf rest

/-! ## Reading values off expansions -/

/-- Value of a decimal digit character. -/
def digitValue (c : Char) : Option Nat :=
  if '0' ≤ c ∧ c ≤ '9' then some (c.toNat - '0'.toNat) else none

/-- Value of a digit sequence read left to right from the accumulator `acc`. -/
def digitsValue : Nat → List Char → Option Nat
  | acc, [] => some acc
  | acc, c :: cs =>
    match digitValue c with
    | none => none
    | some d => digitsValue (10 * acc + d) cs

/-- Value of a pp-number that is a decimal integer constant without suffix:
a nonzero digit followed by digits, or the single digit `0`. -/
def decimalValue (spelling : String) : Option Nat :=
  match spelling.data with
  | [] => none
  | ['0'] => some 0
  | '0' :: _ => none
  | cs => digitsValue 0 cs

/-- The string a macro expands to, when its expansion is one string literal. -/
def macroString (tbl : List Define) (name : String) : Option String :=
  match expandMacro tbl name with
  | some [.stringLit s] => some s
  | _ => none

/-- The number a macro expands to, when its expansion is one decimal constant. -/
def macroNumber (tbl : List Define) (name : String) : Option Nat :=
  match expandMacro tbl name with
  | some [.number sp] => decimalValue sp
  | _ => none

/-! ## The specification's renderings -/

/-- The version string as the specification words it: the decimal renderings
of major, minor and patch joined by single dots. -/
def specVersionString (major minor patch : Nat) : String :=
  Nat.repr major ++ "." ++ Nat.repr minor ++ "." ++ Nat.repr patch

/-- The release string as the specification words it: the version string,
one space as separator, then the date token. -/
def specReleaseString (major minor patch : Nat) (date : String) : String :=
  specVersionString major minor patch ++ " " ++ date

/-- The part of a release string after its first space. -/
def dateToken (release : String) : List Char :=
  (release.data.dropWhile (fun c => !(c == ' '))).drop 1

/-- Reads `MM-DD-YYYY` (two digits, `-`, two digits, `-`, four digits) as
(month, day, year); `none` for any other shape. -/
def parseDate : List Char → Option (Nat × Nat × Nat)
  | [m1, m2, s1, d1, d2, s2, y1, y2, y3, y4] =>
    if s1 = '-' ∧ s2 = '-' then
      match digitsValue 0 [m1, m2], digitsValue 0 [d1, d2], digitsValue 0 [y1, y2, y3, y4] with
      | some m, some d, some y => some (m, d, y)
      | _, _, _ => none
    else none
  | _ => none

/-- Gregorian leap years. -/
def isLeapYear (y : Nat) : Bool :=
  y % 4 == 0 && (y % 100 != 0 || y % 400 == 0)

/-- Number of days of month `m` (1..12) in year `y`; 0 for any other `m`. -/
def daysInMonth (y m : Nat) : Nat :=
  if m = 2 then (if isLeapYear y then 29 else 28)
  else if m = 4 ∨ m = 6 ∨ m = 9 ∨ m = 11 then 30
  else if 1 ≤ m ∧ m ≤ 12 then 31
  else 0

/-- Checks, walking the table in definition order with the names `seen` so
far, that every replacement list mentions only names defined before it. -/
def refersOnlyEarlier : List String → List Define → Bool
  | _, [] => true
  | seen, d :: rest =>
    (identsOf d.body).all (fun n => seen.contains n) && refersOnlyEarlier (d.name :: seen) rest

/-- Names of the macros whose replacement list mentions another name. -/
def aliasNames (tbl : List Define) : List String :=
  (tbl.filter (fun d => !(identsOf d.body).isEmpty)).map (fun d => d.name)

/-! ## General facts about expansion -/

/-- A defined name is one of the names of the table. -/
theorem mem_names_of_lookup {tbl : List Define} {n : String} {body : List PPToken}
    (h : lookup tbl n = some body) : n ∈ tbl.map (fun d => d.name) := by
  unfold lookup at h
  cases hf : tbl.find? (fun d => d.name == n) with
  | none => simp [hf] at h
  | some d =>
    have hm : d ∈ tbl := List.mem_of_find?_eq_some hf
    have hn := List.find?_some hf
    have hdn : d.name = n := by simpa using hn
    exact List.mem_map.mpr ⟨d, hm, hdn⟩

/-- A rescanning pass succeeds with the same result when the nested expansion is
replaced by one that succeeds at least as often. -/
theorem expandWith_mono (tbl : List Define)
    (sub sub2 : List String → List PPToken → Option (List PPToken))
    (h : ∀ hide toks r, sub hide toks = some r → sub2 hide toks = some r)
    (hide : List String) :
    ∀ toks r, expandWith tbl sub hide toks = some r → expandWith tbl sub2 hide toks = some r := by
  intro toks
  induction toks with
  | nil => intro r hr; simpa [expandWith] using hr
  | cons t rest ih =>
    intro r hr
    cases t with
    | ident n =>
      simp only [expandWith] at hr ⊢
      by_cases hh : hide.contains n = true
      · simp only [hh, if_true] at hr ⊢
        cases hrest : expandWith tbl sub hide rest with
        | none => simp [hrest] at hr
        | some q => rw [ih q hrest]; rw [hrest] at hr; exact hr
      · simp only [hh] at hr ⊢
        cases hl : lookup tbl n with
        | none =>
          simp only [hl] at hr ⊢
          cases hrest : expandWith tbl sub hide rest with
          | none => simp [hrest] at hr
          | some q => rw [ih q hrest]; rw [hrest] at hr; exact hr
        | some body =>
          simp only [hl] at hr ⊢
          cases hs : sub (n :: hide) body with
          | none => simp [hs] at hr
          | some a =>
            rw [h _ _ a hs]
            simp only [hs] at hr ⊢
            cases hrest : expandWith tbl sub hide rest with
            | none => simp [hrest] at hr
            | some q => rw [ih q hrest]; rw [hrest] at hr; exact hr
    | number sp =>
      simp only [expandWith] at hr ⊢
      cases hrest : expandWith tbl sub hide rest with
      | none => simp [hrest] at hr
      | some q => rw [ih q hrest]; rw [hrest] at hr; exact hr
    | stringLit c =>
      simp only [expandWith] at hr ⊢
      cases hrest : expandWith tbl sub hide rest with
      | none => simp [hrest] at hr
      | some q => rw [ih q hrest]; rw [hrest] at hr; exact hr
    | comma =>
      simp only [expandWith] at hr ⊢
      cases hrest : expandWith tbl sub hide rest with
      | none => simp [hrest] at hr
      | some q => rw [ih q hrest]; rw [hrest] at hr; exact hr

/-- One more unit of fuel never changes a result already obtained. -/
theorem expand_succ (tbl : List Define) :
    ∀ fuel hide toks r, expand tbl fuel hide toks = some r →
      expand tbl (fuel + 1) hide toks = some r := by
  intro fuel
  induction fuel with
  | zero => intro hide toks r hr; simp [expand] at hr
  | succ k ih =>
    intro hide toks r hr
    simp only [expand] at hr ⊢
    exact expandWith_mono tbl (expand tbl k) (expand tbl (k + 1)) ih hide toks r hr

/-- More fuel never changes a result already obtained. -/
theorem expand_le (tbl : List Define) {fuel fuel2 : Nat} (hle : fuel ≤ fuel2)
    (hide : List String) (toks r : List PPToken)
    (hr : expand tbl fuel hide toks = some r) : expand tbl fuel2 hide toks = some r := by
  induction hle with
  | refl => exact hr
  | step _ ih => exact expand_succ tbl _ hide toks r ih

/-- Expansion does not run out of fuel as long as the fuel left plus the number
of names being replaced exceeds the number of macros: every nested replacement
adds a new name of the table to the names being replaced. -/
theorem expand_isSome (tbl : List Define) :
    ∀ fuel hide, hide.Nodup → hide ⊆ tbl.map (fun d => d.name) →
      tbl.length + 1 ≤ fuel + hide.length →
      ∀ toks, (expand tbl fuel hide toks).isSome = true := by
  intro fuel
  induction fuel with
  | zero =>
    intro hide hnd hsub hlen toks
    have hle : hide.length ≤ (tbl.map (fun d => d.name)).length :=
      (hnd.subperm hsub).length_le
    simp only [List.length_map] at hle
    omega
  | succ k ih =>
    intro hide hnd hsub hlen toks
    simp only [expand]
    induction toks with
    | nil => simp [expandWith]
    | cons t rest ihr =>
      cases t with
      | ident n =>
        simp only [expandWith]
        by_cases hh : hide.contains n = true
        · simp only [hh, if_true, Option.isSome_map']
          exact ihr
        · simp only [hh, Bool.false_eq_true, if_false]
          cases hl : lookup tbl n with
          | none =>
            simp only [Option.isSome_map']
            exact ihr
          | some body =>
            have hn : n ∉ hide := by simpa using hh
            have hsub2 : (n :: hide) ⊆ tbl.map (fun d => d.name) := by
              intro x hx
              rcases List.mem_cons.mp hx with rfl | hx
              · exact mem_names_of_lookup hl
              · exact hsub hx
            have hsome := ih (n :: hide) (List.nodup_cons.mpr ⟨hn, hnd⟩) hsub2
              (by simp only [List.length_cons]; omega) body
            cases hs : expand tbl k (n :: hide) body with
            | none => simp [hs] at hsome
            | some a =>
              simp only [hs, Option.isSome_map']
              exact ihr
      | number sp =>
        simp only [expandWith, Option.isSome_map']
        exact ihr
      | stringLit c =>
        simp only [expandWith, Option.isSome_map']
        exact ihr
      | comma =>
        simp only [expandWith, Option.isSome_map']
        exact ihr

/-- Expanding a name always produces a result, whatever the macro table. -/
theorem expandMacro_isSome (tbl : List Define) (name : String) :
    (expandMacro tbl name).isSome = true :=
  expand_isSome tbl (tbl.length + 1) [] List.nodup_nil (List.nil_subset _)
    (by simp) [.ident name]

/-! ## The version record of the header -/

/-- Claim C1: the version string is derived from the three numeric fields.
`MYSTIC_VERSION` expands to exactly the decimal rendering of the value of
`MYSTIC_VERSION_MAJOR`, a dot, that of `MYSTIC_VERSION_MINOR`, a dot, and that
of `MYSTIC_VERSION_PATCH`, with nothing else in the string. -/
theorem version_string_derived_from_fields :
    ∃ major minor patch : Nat,
      macroNumber header "MYSTIC_VERSION_MAJOR" = some major ∧
      macroNumber header "MYSTIC_VERSION_MINOR" = some minor ∧
      macroNumber header "MYSTIC_VERSION_PATCH" = some patch ∧
      macroString header "MYSTIC_VERSION" =
        some (Nat.repr major ++ "." ++ Nat.repr minor ++ "." ++ Nat.repr patch) ∧
      macroString header "MYSTIC_VERSION" = some (specVersionString major minor patch) :=
  ⟨2, 7, 1, by decide, by decide, by decide, by decide, by decide⟩

/-- Claim C2: the release string `MYSTIC_RELEASE_VERSION` is the version string
`MYSTIC_VERSION`, then one space, then a date token that is not empty, holds no
space and runs to the end of the string; nothing comes before the version
string. -/
theorem release_string_is_version_then_date :
    ∃ version date : String,
      macroString header "MYSTIC_VERSION" = some version ∧
      macroString header "MYSTIC_RELEASE_VERSION" = some (version ++ " " ++ date) ∧
      date ≠ "" ∧ ' ' ∉ date.data ∧ dateToken (version ++ " " ++ date) = date.data :=
  ⟨"2.7.1", "11-19-2020", by decide, by decide, by decide, by decide, by decide⟩

/-- Claim C3: the version record of the header is the example of the
specification: major 2, minor 7, patch 1, version string "2.7.1" and release
string "2.7.1 11-19-2020", which are the two strings the specification renders
from the inputs (2, 7, 1, "11-19-2020"). -/
theorem version_record_is_example :
    macroNumber header "MYSTIC_VERSION_MAJOR" = some 2 ∧
    macroNumber header "MYSTIC_VERSION_MINOR" = some 7 ∧
    macroNumber header "MYSTIC_VERSION_PATCH" = some 1 ∧
    macroString header "MYSTIC_VERSION" = some "2.7.1" ∧
    macroString header "MYSTIC_RELEASE_VERSION" = some "2.7.1 11-19-2020" ∧
    specVersionString 2 7 1 = "2.7.1" ∧
    specReleaseString 2 7 1 "11-19-2020" = "2.7.1 11-19-2020" := by
  decide

/-! ## The descriptive fields -/

/-- Claim C4, as stated, fails: none of the three application-specific macros
expands to the value the field table of the specification gives it, so the
three equalities do not hold together. -/
theorem application_fields_not_as_tabled :
    ¬ (macroString header "MYSTIC_FILEDESCRIPTION_STR" =
          some "Application for visualization of event log output" ∧
        macroString header "MYSTIC_ORIGINALFILENAME_STR" = some "app.exe" ∧
        macroString header "MYSTIC_PRODUCTNAME_STR" = some "Product-Name") ∧
    macroString header "MYSTIC_FILEDESCRIPTION_STR" ≠
      some "Application for visualization of event log output" ∧
    macroString header "MYSTIC_ORIGINALFILENAME_STR" ≠ some "app.exe" ∧
    macroString header "MYSTIC_PRODUCTNAME_STR" ≠ some "Product-Name" := by
  decide

/-- Claim C4, amended: the file description `MYSTIC_FILEDESCRIPTION_STR` is
"AFSIM's application for the visualization of event_pipe output", the original
filename `MYSTIC_ORIGINALFILENAME_STR` is "mystic.exe", and the product name
`MYSTIC_PRODUCTNAME_STR` is "AFSIM-Mystic". -/
theorem application_fields_values :
    macroString header "MYSTIC_FILEDESCRIPTION_STR" =
      some "AFSIM's application for the visualization of event_pipe output" ∧
    macroString header "MYSTIC_ORIGINALFILENAME_STR" = some "mystic.exe" ∧
    macroString header "MYSTIC_PRODUCTNAME_STR" = some "AFSIM-Mystic" := by
  decide

/-- Claim C5: the company name `MYSTIC_COMPANYNAME_STR` is
"United States Air Force (USAF)", the copyright notice
`MYSTIC_LEGALCOPYRIGHT_STR` is "Multiple", the trademark notice
`MYSTIC_LEGALTRADEMARKS1_STR` is "All Rights Reserved", and the company domain
`MYSTIC_COMPANYDOMAIN_STR` is "https://airforce.com". -/
theorem company_and_legal_fields_values :
    macroString header "MYSTIC_COMPANYNAME_STR" = some "United States Air Force (USAF)" ∧
    macroString header "MYSTIC_LEGALCOPYRIGHT_STR" = some "Multiple" ∧
    macroString header "MYSTIC_LEGALTRADEMARKS1_STR" = some "All Rights Reserved" ∧
    macroString header "MYSTIC_COMPANYDOMAIN_STR" = some "https://airforce.com" := by
  decide

/-! ## The resource-file macros -/

/-- Claim C6: after full expansion `MYSTIC_FILEVERSION` and
`MYSTIC_PRODUCTVERSION` are the same comma-separated triple 2,7,1, made of the
expansions of the major, minor and patch macros; `MYSTIC_FILEVERSION_STR` is
the dotted rendering of that triple and equals `MYSTIC_VERSION`;
`MYSTIC_PRODUCTVERSION_STR` equals `MYSTIC_RELEASE_VERSION`, and the file
version string is a proper prefix of it. -/
theorem resource_version_macros_agree :
    expandMacro header "MYSTIC_FILEVERSION" =
      some [.number "2", .comma, .number "7", .comma, .number "1"] ∧
    expandMacro header "MYSTIC_PRODUCTVERSION" = expandMacro header "MYSTIC_FILEVERSION" ∧
    (∃ major minor patch : List PPToken,
      expandMacro header "MYSTIC_VERSION_MAJOR" = some major ∧
      expandMacro header "MYSTIC_VERSION_MINOR" = some minor ∧
      expandMacro header "MYSTIC_VERSION_PATCH" = some patch ∧
      expandMacro header "MYSTIC_FILEVERSION" =
        some (major ++ [.comma] ++ minor ++ [.comma] ++ patch)) ∧
    macroString header "MYSTIC_FILEVERSION_STR" = some (specVersionString 2 7 1) ∧
    macroString header "MYSTIC_FILEVERSION_STR" = macroString header "MYSTIC_VERSION" ∧
    macroString header "MYSTIC_PRODUCTVERSION_STR" =
      macroString header "MYSTIC_RELEASE_VERSION" ∧
    (∃ file product : String,
      macroString header "MYSTIC_FILEVERSION_STR" = some file ∧
      macroString header "MYSTIC_PRODUCTVERSION_STR" = some product ∧
      file.data <+: product.data ∧ file ≠ product) :=
  ⟨by decide, by decide,
   ⟨[.number "2"], [.number "7"], [.number "1"], by decide, by decide, by decide, by decide⟩,
   by decide, by decide, by decide,
   ⟨"2.7.1", "2.7.1 11-19-2020", by decide, by decide, by decide, by decide⟩⟩

/-- Claim C7: the date token of the release string, the part of
`MYSTIC_RELEASE_VERSION` after the space, reads as MM-DD-YYYY (two digits, a
dash, two digits, a dash, four digits) and is a calendar date: the month lies
in 1..12 and the day in 1..(days of that month in that year). -/
theorem release_date_is_calendar_date :
    ∃ (release : String) (month day year : Nat),
      macroString header "MYSTIC_RELEASE_VERSION" = some release ∧
      parseDate (dateToken release) = some (month, day, year) ∧
      1 ≤ month ∧ month ≤ 12 ∧ 1 ≤ day ∧ day ≤ daysInMonth year month :=
  ⟨"2.7.1 11-19-2020", 11, 19, 2020, by decide, by decide, by decide, by decide, by decide,
   by decide⟩

/-- Claim C8: expanding any name the header defines ends in literals only.
Every replacement list mentions only names defined earlier in the header, no
name is defined twice, the macros that mention another name are exactly the five
aliases, `MYSTIC_INTERNALNAME_STR` is neither defined nor mentioned, the
expansion of every defined name succeeds, holds no identifier and is the same
for every fuel from 4 on, and `MYSTIC_LEGALTRADEMARKS2_STR` expands to
the same string as `MYSTIC_LEGALTRADEMARKS1_STR`. -/
theorem expansion_ends_in_literals :
    refersOnlyEarlier [] header = true ∧
    (header.map (fun d => d.name)).Nodup ∧
    aliasNames header =
      ["MYSTIC_FILEVERSION", "MYSTIC_FILEVERSION_STR", "MYSTIC_PRODUCTVERSION",
       "MYSTIC_PRODUCTVERSION_STR", "MYSTIC_LEGALTRADEMARKS2_STR"] ∧
    lookup header "MYSTIC_INTERNALNAME_STR" = none ∧
    (∀ d ∈ header, "MYSTIC_INTERNALNAME_STR" ∉ identsOf d.body) ∧
    (∀ d ∈ header,
      (expandMacro header d.name).map (fun lits => lits.all PPToken.isLiteral) = some true) ∧
    (∀ fuel, 4 ≤ fuel → ∀ d ∈ header,
      expand header fuel [] [.ident d.name] = expandMacro header d.name) ∧
    macroString header "MYSTIC_LEGALTRADEMARKS2_STR" =
      macroString header "MYSTIC_LEGALTRADEMARKS1_STR" ∧
    macroString header "MYSTIC_LEGALTRADEMARKS1_STR" = some "All Rights Reserved" := by
  refine ⟨by decide, by decide, by decide, by decide, by decide, by decide, ?_, by decide,
    by decide⟩
  intro fuel hfuel d hd
  have h4 : ∀ e ∈ header, expand header 4 [] [.ident e.name] = expandMacro header e.name := by
    decide
  cases hr : expandMacro header d.name with
  | none =>
    have hsome := expandMacro_isSome header d.name
    simp [hr] at hsome
  | some r =>
    have hbase : expand header 4 [] [.ident d.name] = some r := by rw [h4 d hd, hr]
    exact expand_le header hfuel [] [.ident d.name] r hbase

end Mystic
